import Mathlib

/-!
Verification development for the telehele transfer pipeline
(src/java/scripts/download-channel.js and src/java/modules/messages.js).

Each definition is a shallow embedding of the corresponding JavaScript
function; JS floating point numbers used with only +, *, /, min, max and
comparisons on small literals are modelled as rationals, and JS machine
integers (message ids, sizes, counters) as naturals/integers.
-/

namespace Telehele

/-! ## SpeedController: `initializeSpeedMonitor` (download-channel.js lines 102-210)

Only the fields the stabilization-factor update touches are modelled:
`stabilizationFactor` (starts at 3.0), `consecutiveLowSpeed` (starts at 0)
and the instance field `speedBoostMode` (constructor sets it to false).
`updateSpeed` classifies `currentSpeedMbps` against 25 and 30 Mbps and
then applies the emergency boost when the consecutive-low counter
exceeds 3.  The throughput bookkeeping (totalBytes, history, averages)
does not feed back into the factor update, so the update is a function
of the previous state and the current sample speed. -/

structure SpeedState where
  stabilizationFactor : ℚ
  consecutiveLowSpeed : ℕ
  speedBoostMode : Bool
  deriving Repr, DecidableEq

/-- Initial monitor state: `stabilizationFactor: 3.0`, `consecutiveLowSpeed: 0`,
`this.speedBoostMode = false` (constructor line 82). -/
def initialSpeedState : SpeedState :=
  { stabilizationFactor := 3, consecutiveLowSpeed := 0, speedBoostMode := false }

/-- The three-way speed classification of `updateSpeed` (lines 144-167).
`1.25 = 5/4`, `0.95 = 19/20`, `1.15 = 23/20`. -/
def speedBranch (st : SpeedState) (currentSpeedMbps : ℚ) : SpeedState :=
  if currentSpeedMbps < 25 then
    { st with
      stabilizationFactor := min 5 (st.stabilizationFactor * (5/4)),
      consecutiveLowSpeed := st.consecutiveLowSpeed + 1,
      speedBoostMode := true }
  else if 30 ≤ currentSpeedMbps then
    { st with
      stabilizationFactor := max 2 (st.stabilizationFactor * (19/20)),
      consecutiveLowSpeed := 0,
      speedBoostMode := false }
  else
    { st with stabilizationFactor := min 4 (st.stabilizationFactor * (23/20)) }

/-- The emergency ultra-boost of `updateSpeed` (lines 169-174), run after
the classification on the updated counter. -/
def emergencyBoost (st : SpeedState) : SpeedState :=
  if st.consecutiveLowSpeed > 3 then
    { st with
      stabilizationFactor := 5,
      speedBoostMode := true,
      consecutiveLowSpeed := 0 }
  else st

/-- The stabilization-factor part of `updateSpeed` (lines 144-174):
classification followed by the emergency-boost check. -/
def updateSpeedFactor (st : SpeedState) (currentSpeedMbps : ℚ) : SpeedState :=
  emergencyBoost (speedBranch st currentSpeedMbps)

/-- Folding a sequence of observed sample speeds through `updateSpeed`. -/
def runSpeedSamples (samples : List ℚ) : SpeedState :=
  samples.foldl updateSpeedFactor initialSpeedState

/-! ## `precisionDelay` (download-channel.js lines 419-448)

Returns the number of milliseconds actually slept for a requested wait of
`ms` milliseconds.  `mon = none` models `this.speedMonitor` being null;
otherwise the branch is chosen by the parsed current speed in Mbps and
the delay is divided by the stabilization factor. -/

structure MonitorView where
  stabilizationFactor : ℚ
  currentSpeedMbps : ℚ
  deriving Repr, DecidableEq

def precisionDelay (mon : Option MonitorView) (speedBoostMode : Bool) (ms : ℚ) : ℚ :=
  match mon with
  | none => max 5 (ms / 3)
  | some m =>
    let f := m.stabilizationFactor
    let targetDelay :=
      if m.currentSpeedMbps < 20 then max 5 (ms / (f * 2))
      else if 30 ≤ m.currentSpeedMbps then max 10 (ms / f)
      else max 8 (ms / (f * (3/2)))
    if speedBoostMode then max 5 (targetDelay / 2) else targetDelay

/-! ## RetryOrchestrator: `retryOperation` (download-channel.js lines 453-490)

An operation is modelled as a function from the loop counter `attempt`
(1-based) to a result.  Errors are either a rate limit (`FLOOD_WAIT`
with the parsed seconds) or any other error.  The events recorded are:
the start of each attempt, each flood event recorded by
`updateFloodWaitHistory(true, w)`, and each sleep performed through
`precisionDelay` (given as the actual slept milliseconds, where
`delayOf` is the caller's `precisionDelay` in its current monitor
state).  The JS loop is `for (attempt = 1; attempt <= maxRetries;
attempt++)`; the FLOOD_WAIT branch (`waitTime <= 300`) ends with
`continue`, which still runs the `attempt++` update, so the loop can
also terminate by falling out after a flood wait on the last attempt,
returning `undefined` - modelled as `Except.ok none`. -/

inductive JsError where
  | floodWait (seconds : ℕ)
  | other (msg : String)
  deriving Repr, DecidableEq

inductive RetryEvent where
  | attemptStart (n : ℕ)
  | floodRecorded (waitSeconds : ℕ)
  | slept (ms : ℚ)
  deriving Repr, DecidableEq

def retryFuel {α : Type} (op : ℕ → Except JsError α) (delayOf : ℚ → ℚ)
    (maxRetries : ℕ) : ℕ → ℕ → List RetryEvent × Except JsError (Option α)
  | 0, _ => ([], Except.ok none)
  | fuel + 1, attempt =>
    if maxRetries < attempt then ([], Except.ok none)
    else
      match op attempt with
      | Except.ok a => ([RetryEvent.attemptStart attempt], Except.ok (some a))
      | Except.error e =>
        match e with
        | JsError.floodWait w =>
          if w ≤ 300 then
            let rest := retryFuel op delayOf maxRetries fuel (attempt + 1)
            (RetryEvent.attemptStart attempt :: RetryEvent.floodRecorded w ::
              RetryEvent.slept (delayOf ((w : ℚ) * 1000)) :: rest.1, rest.2)
          else if attempt = maxRetries then
            ([RetryEvent.attemptStart attempt, RetryEvent.floodRecorded w],
              Except.error e)
          else
            let rest := retryFuel op delayOf maxRetries fuel (attempt + 1)
            (RetryEvent.attemptStart attempt :: RetryEvent.floodRecorded w ::
              RetryEvent.slept (delayOf (min 500 (100 * (attempt : ℚ)))) :: rest.1,
              rest.2)
        | JsError.other _ =>
          if attempt = maxRetries then
            ([RetryEvent.attemptStart attempt], Except.error e)
          else
            let rest := retryFuel op delayOf maxRetries fuel (attempt + 1)
            (RetryEvent.attemptStart attempt ::
              RetryEvent.slept (delayOf (min 500 (100 * (attempt : ℚ)))) :: rest.1,
              rest.2)

def retryOperation {α : Type} (op : ℕ → Except JsError α) (delayOf : ℚ → ℚ)
    (maxRetries : ℕ) : List RetryEvent × Except JsError (Option α) :=
  retryFuel op delayOf maxRetries (maxRetries + 1) 1

/-- Number of operation invocations recorded in a retry trace. -/
def countStarts (evs : List RetryEvent) : ℕ :=
  evs.countP fun e => match e with | RetryEvent.attemptStart _ => true | _ => false

/-- Total milliseconds slept in a retry trace. -/
def sleptTotal (evs : List RetryEvent) : ℚ :=
  (evs.map fun e => match e with | RetryEvent.slept ms => ms | _ => 0).sum

/-! ## Size verification after a fetch: `downloadMessage` (lines 646-682)

`expectedSize = message.media?.document?.size ||
message.media?.photo?.sizes?.[0]?.size || 0` - JS `||` falls through on
`0`/`undefined`, so an absent hint is the same as 0.  `sizeVerified =
expectedSize === 0 || fileSize >= expectedSize * 0.95`; on
`!sizeVerified && expectedSize > 0` the partial artifact is deleted and
an `Incomplete download` error is thrown, which the surrounding catch
retries like any transient failure. -/

def expectedSizeHint (docSize photoFirstSize : ℕ) : ℕ :=
  if docSize ≠ 0 then docSize else photoFirstSize

def sizeVerified (expectedSize fileSize : ℕ) : Bool :=
  expectedSize = 0 ∨ (expectedSize : ℚ) * (19/20) ≤ (fileSize : ℚ)

inductive SizeCheckOutcome where
  | accept
  | deleteAndRetry
  deriving Repr, DecidableEq

def sizeCheckOutcome (expectedSize fileSize : ℕ) : SizeCheckOutcome :=
  if ¬ sizeVerified expectedSize fileSize ∧ 0 < expectedSize then
    SizeCheckOutcome.deleteAndRetry
  else SizeCheckOutcome.accept

/-! ## Sequential upload queue: `uploadBatch` (download-channel.js lines 1006-1197)

`downloadedData.sort((a, b) => a.message.id - b.message.id)` sorts the
fetched records ascending by message id (modelled with a stable
insertion sort, matching the ascending comparator).  The loop then
processes `uploadQueue` strictly sequentially: each iteration awaits the
(retry-wrapped) upload of the current record to its end, marks the
record `uploadCompleted = true` on every path - success (line 1125),
flood-retry success (line 1163) or failure (line 1176, "Mark as failed
but continue sequence") - before the next index is reached.  Records
are identified by their message id; `outcome id` gives whether the
record's upload ultimately succeeds (after all its internal retries). -/

def insertAsc (x : ℕ) : List ℕ → List ℕ
  | [] => [x]
  | y :: ys => if x ≤ y then x :: y :: ys else y :: insertAsc x ys

def sortIds : List ℕ → List ℕ
  | [] => []
  | x :: xs => insertAsc x (sortIds xs)

inductive UploadEvent where
  | start (id : ℕ)
  | terminal (id : ℕ) (success : Bool)
  deriving Repr, DecidableEq

/-- Trace of the sequential loop over the already-sorted queue: each
iteration starts the record's upload and drives it to a terminal state
before the next iteration begins. -/
def uploadQueueTrace (outcome : ℕ → Bool) : List ℕ → List UploadEvent
  | [] => []
  | id :: rest =>
    UploadEvent.start id :: UploadEvent.terminal id (outcome id) ::
      uploadQueueTrace outcome rest

/-- `uploadBatch`: bail out when upload mode is off or the batch is
empty (lines 1007-1009), otherwise sort by message id and run the
sequential queue. -/
def uploadBatch (uploadMode : Bool) (outcome : ℕ → Bool) (records : List ℕ) :
    List UploadEvent :=
  if uploadMode ∧ records ≠ [] then uploadQueueTrace outcome (sortIds records)
  else []

/-- The `uploadResults` array built by the loop: one entry per record in
queue order, `success` per the record's final outcome (lines 1141, 1165,
1177). -/
def uploadResults (outcome : ℕ → Bool) (records : List ℕ) : List (ℕ × Bool) :=
  (sortIds records).map fun id => (id, outcome id)

/-- The ids of `deliver()` invocation starts, in trace order. -/
def startsOf (evs : List UploadEvent) : List ℕ :=
  evs.filterMap fun e => match e with
    | UploadEvent.start id => some id
    | _ => none

/-! ## Batch pipeline failure policy: `processBatch` (lines 1439-1550)

The body (refresh, download phase, upload phase, cleanup) either
completes or throws; the catch block (lines 1525-1549) calls
`refreshMessagesBatch` and, when it returns a non-empty message list,
recursively re-runs `processBatch` - whose own catch does the same, so
the refresh-and-rerun repeats for as long as re-fetches keep returning
messages.  Both the refresh and the recursive call sit inside an inner
`try { ... } catch (retryError) { logger.error(...) }` that never
rethrows, so `processBatch` itself always returns normally.  A run is
abstracted as the list of outcomes of successive body attempts:
`bodyOk` (the attempt completes), `bodyErrRefreshSome` (the attempt
throws and the whole-batch re-fetch returns messages, so the batch is
re-run), `bodyErrRefreshNone` (the attempt throws and the re-fetch
fails, returns null or returns no messages).  The result pairs the
number of whole-batch re-fetch calls with the outcome surfaced to the
caller (`Except.error` would model an escaped exception). -/

inductive BatchRound where
  | bodyOk
  | bodyErrRefreshSome
  | bodyErrRefreshNone
  deriving Repr, DecidableEq

def processBatchRun : List BatchRound → ℕ × Except String Unit
  | [] => (0, Except.ok ())
  | BatchRound.bodyOk :: _ => (0, Except.ok ())
  | BatchRound.bodyErrRefreshNone :: _ => (1, Except.ok ())
  | BatchRound.bodyErrRefreshSome :: rest =>
    let r := processBatchRun rest
    (r.1 + 1, r.2)

/-! ## Checkpoint persistence (download-channel.js lines 1770-1776 and
1980-1988; store: the file-helper segment of modules/messages.js,
lines 955-980)

`getLastSelection()` parses `export/last_selection.json` and returns
the empty object `{}` when the file is missing or unreadable (lines
955-962); `updateLastSelection(object)` writes
`{ ...getLastSelection(), ...object }` (lines 973-980), so a save
overrides exactly the fields present in its argument and keeps the
rest.  The selection record is modelled with the two fields these call
sites use, each an `Option` so that `none` is an absent JSON key
(`undefined` on read).  Offsets live in `WithBot ℤ` with `⊥` playing
`-Infinity` - the value of JS `Math.max()` of an empty array, which
`downloadChannel` can store at the end of a window. -/

structure Selection where
  channelId : Option ℤ
  messageOffsetId : Option (WithBot ℤ)
  deriving DecidableEq

/-- `getLastSelection()` when `last_selection.json` is missing or fails
to parse: the empty object (messages.js lines 959-961). -/
def emptySelection : Selection :=
  { channelId := none, messageOffsetId := none }

/-- An object literal passed to `updateLastSelection`: each field is
either present (`some`) or absent (`none`) in the literal. -/
structure SelectionPatch where
  channelId : Option ℤ := none
  messageOffsetId : Option (WithBot ℤ) := none

/-- `updateLastSelection(object)` (messages.js lines 973-980): the
spread-merge `{ ...last, ...object }` - fields present in `object`
override the stored ones, absent fields are kept. -/
def updateLastSelection (sel : Selection) (p : SelectionPatch) : Selection :=
  { channelId :=
      match p.channelId with
      | some c => some c
      | none => sel.channelId,
    messageOffsetId :=
      match p.messageOffsetId with
      | some v => some v
      | none => sel.messageOffsetId }

/-- `lastSelection.messageOffsetId || 0` (download-channel.js line
1981): an absent field (`undefined`) and the falsy number 0 both fall
back to 0; every other number stored by this program - including
`-Infinity`, which is truthy - passes through. -/
def jsOrZero : Option (WithBot ℤ) → WithBot ℤ
  | none => 0
  | some v => if v = 0 then 0 else v

/-- `Number(lastSelection.channelId) !== Number(channelId)` (line 1983):
`Number(undefined)` is `NaN`, which differs from every number, so an
absent stored channel always counts as different. -/
def channelDiffers : Option ℤ → ℤ → Bool
  | none, _ => true
  | some a, b => a != b

/-- `configureDownload` checkpoint handling (lines 1980-1988): load the
selection, apply the `|| 0` fallback, reset the offset to 0 when the
selected channel differs from the stored one, save both fields and
return the `messageOffsetId` passed on to `downloadChannel`. -/
def configureSel (sel : Selection) (channelId : ℤ) : Selection × WithBot ℤ :=
  let messageOffsetId0 := jsOrZero sel.messageOffsetId
  let messageOffsetId :=
    if channelDiffers sel.channelId channelId then (0 : WithBot ℤ)
    else messageOffsetId0
  (updateLastSelection sel
    { channelId := some channelId, messageOffsetId := some messageOffsetId },
    messageOffsetId)

/-- `Math.max(...ids)` over the window's filtered message ids. -/
def listMax (ids : List ℤ) : WithBot ℤ :=
  ids.foldr (fun a b => max (a : WithBot ℤ) b) ⊥

/-- End-of-window checkpoint save (lines 1772-1775):
`updateLastSelection({ messageOffsetId: maxId })`. -/
def windowUpdate (sel : Selection) (filteredIds : List ℤ) : Selection :=
  updateLastSelection sel { messageOffsetId := some (listMax filteredIds) }

/-- The persisted checkpoint value, an absent field reading as the
minimal value (nothing checkpointed yet). -/
def offsetOf (sel : Selection) : WithBot ℤ :=
  match sel.messageOffsetId with
  | some v => v
  | none => ⊥

/-- One step of checkpoint-store evolution in which every restart
re-selects the stored channel and every processed window contains at
least one message, all of them beyond the persisted offset (guaranteed
by fetching with `offsetId` set to the value `configureSel` returned,
which is at least the persisted one). -/
inductive CkptStep : Selection → Selection → Prop
  | configure (sel : Selection) (ch : ℤ) (hch : sel.channelId = some ch) :
      CkptStep sel (configureSel sel ch).1
  | window (sel : Selection) (ids : List ℤ) (hne : ids ≠ [])
      (hgt : ∀ i ∈ ids, offsetOf sel < (i : WithBot ℤ)) :
      CkptStep sel (windowUpdate sel ids)

/-! ## Media paths: `getMediaPath` / `checkFileExist` (messages.js lines 1094-1156)

Strings are modelled as `List Char`.  `${message.id}` is the decimal
rendering of the id.  `path.extname` (for names without a directory
separator) is the suffix from the last dot, except that it is empty
when there is no dot, when the only dot is the leading character
(dotfile names such as `.bashrc`), or when the name is exactly `..`;
`path.basename(fileName, ext)` then strips that suffix.  The raw
`fileName` computed on lines 1119-1139 (document attribute name, mime
extension fallback, or `<id>_file` plus `.mp4`/`.mp3`/`.jpg`) and the
`filterString(getMediaType(message))` folder are inputs of the model,
since the collision-avoidance logic of lines 1143-1148 must work for
every value they can take.  `path.join` of plain segments concatenates
them with `/`. -/

/-- Decimal character rendering of a message id (JS template `${message.id}`). -/
def idChars (n : ℕ) : List Char :=
  if n = 0 then ['0'] else ((Nat.digits 10 n).reverse.map Nat.digitChar)

/-- Node `path.extname` for a file name containing no `/`. -/
def extnameList (l : List Char) : List Char :=
  let pre := l.reverse.takeWhile (fun c => c != '.')
  if l.length ≤ pre.length then []
  else if pre.length = l.length - 1 then []
  else if l = ['.', '.'] then []
  else '.' :: pre.reverse

/-- `path.basename(fileName, ext)` where `ext = path.extname(fileName)`:
the name with its extension suffix removed. -/
def baseNameList (l : List Char) : List Char :=
  l.take (l.length - (extnameList l).length)

/-- Lines 1143-1146: `` `${baseName}_${message.id}${ext}` ``. -/
def uniqueFileName (id : ℕ) (rawFileName : List Char) : List Char :=
  baseNameList rawFileName ++ '_' :: idChars id ++ extnameList rawFileName

/-- A message as far as path generation is concerned: its id, whether it
has media, the raw file name of lines 1119-1139 and the media-type
folder. -/
structure MsgMedia where
  id : ℕ
  hasMedia : Bool
  rawFileName : List Char
  folderType : List Char

/-- `getMediaPath` (lines 1116-1156): `"unknown"` without media, else
`path.join(outputFolder, folderType, uniqueFileName)`. -/
def getMediaPath (outputFolder : List Char) (m : MsgMedia) : List Char :=
  if m.hasMedia then
    outputFolder ++ '/' :: m.folderType ++ '/' :: uniqueFileName m.id m.rawFileName
  else "unknown".data

/-- The local filesystem as seen by `checkFileExist`: `fs.existsSync`
and `fs.statSync(..).size`, with `none` modelling a `statSync` throw
(unreadable file). -/
structure FsView where
  existsF : List Char → Bool
  statSize : List Char → Option ℕ

/-- `checkFileExist` (lines 1094-1113). -/
def checkFileExist (fsv : FsView) (m : MsgMedia) (outputFolder : List Char) : Bool :=
  if ¬ m.hasMedia then false
  else
    let expectedPath := getMediaPath outputFolder m
    if fsv.existsF expectedPath then
      match fsv.statSize expectedPath with
      | some sz => 0 < sz
      | none => false
    else false

/-- The segment of `l` after the last occurrence of `c` (the whole of
`l` when `c` does not occur). -/
def lastSeg (c : Char) (l : List Char) : List Char :=
  (l.reverse.takeWhile (fun x => x != c)).reverse

/-- The segment of `l` before the last occurrence of `c`. -/
def beforeLast (c : Char) (l : List Char) : List Char :=
  (l.reverse.drop ((l.reverse.takeWhile (fun x => x != c)).length + 1)).reverse

/-! ## Theorems -/

theorem speedBranch_bounds (st : SpeedState) (v : ℚ)
    (h2 : 2 ≤ st.stabilizationFactor) (h5 : st.stabilizationFactor ≤ 5) :
    2 ≤ (speedBranch st v).stabilizationFactor ∧
      (speedBranch st v).stabilizationFactor ≤ 5 := by
  unfold speedBranch
  split_ifs <;> dsimp <;> constructor
  · exact le_min (by norm_num) (by nlinarith)
  · exact le_trans (min_le_left _ _) (le_refl _)
  · exact le_max_left _ _
  · exact max_le (by norm_num) (by nlinarith)
  · exact le_min (by norm_num) (by nlinarith)
  · exact le_trans (min_le_left _ _) (by norm_num)

theorem emergencyBoost_bounds (st : SpeedState)
    (h2 : 2 ≤ st.stabilizationFactor) (h5 : st.stabilizationFactor ≤ 5) :
    2 ≤ (emergencyBoost st).stabilizationFactor ∧
      (emergencyBoost st).stabilizationFactor ≤ 5 := by
  unfold emergencyBoost
  split_ifs <;> constructor <;> first | exact h2 | exact h5 | norm_num

theorem foldl_speed_bounds (samples : List ℚ) :
    ∀ st : SpeedState, 2 ≤ st.stabilizationFactor → st.stabilizationFactor ≤ 5 →
      2 ≤ (samples.foldl updateSpeedFactor st).stabilizationFactor ∧
        (samples.foldl updateSpeedFactor st).stabilizationFactor ≤ 5 := by
  induction samples with
  | nil => intro st h2 h5; exact ⟨h2, h5⟩
  | cons v rest ih =>
    intro st h2 h5
    have hb := speedBranch_bounds st v h2 h5
    have he := emergencyBoost_bounds _ hb.1 hb.2
    exact ih _ he.1 he.2

/-- Claim C8: starting from the initial stabilization factor 3.0, every
sequence of `updateSpeed` calls leaves the factor within the bounds
[2.0, 5.0], whichever branch (below-25 multiplicative increase,
at-or-above-30 multiplicative decrease, in-between increase, or the
emergency boost to 5.0) each call takes. -/
theorem speed_factor_within_bounds (samples : List ℚ) :
    2 ≤ (runSpeedSamples samples).stabilizationFactor ∧
      (runSpeedSamples samples).stabilizationFactor ≤ 5 :=
  foldl_speed_bounds samples initialSpeedState (by norm_num [initialSpeedState])
    (by norm_num [initialSpeedState])

theorem retryFuel_all_transient {α : Type} (op : ℕ → Except JsError α)
    (delayOf : ℚ → ℚ) (errOf : ℕ → String)
    (hop : ∀ n, op n = Except.error (JsError.other (errOf n))) (maxRetries : ℕ) :
    ∀ fuel attempt, attempt ≤ maxRetries → maxRetries + 1 ≤ attempt + fuel →
      countStarts (retryFuel op delayOf maxRetries fuel attempt).1 =
          maxRetries + 1 - attempt ∧
        (retryFuel op delayOf maxRetries fuel attempt).2 =
          Except.error (JsError.other (errOf maxRetries)) := by
  intro fuel
  induction fuel with
  | zero => intro attempt h1 h2; omega
  | succ fuel ih =>
    intro attempt h1 h2
    have hlt : ¬ maxRetries < attempt := by omega
    by_cases heq : attempt = maxRetries
    · have hval : retryFuel op delayOf maxRetries (fuel + 1) attempt =
          ([RetryEvent.attemptStart attempt],
            Except.error (JsError.other (errOf attempt))) := by
        simp [retryFuel, hlt, hop, heq]
      rw [hval, heq]
      refine ⟨?_, rfl⟩
      have hcount : countStarts [RetryEvent.attemptStart maxRetries] = 1 := rfl
      rw [hcount]
      omega
    · have hrec := ih (attempt + 1) (by omega) (by omega)
      have hval : retryFuel op delayOf maxRetries (fuel + 1) attempt =
          (RetryEvent.attemptStart attempt ::
            RetryEvent.slept (delayOf (min 500 (100 * (attempt : ℚ)))) ::
            (retryFuel op delayOf maxRetries fuel (attempt + 1)).1,
            (retryFuel op delayOf maxRetries fuel (attempt + 1)).2) := by
        simp [retryFuel, hlt, hop, heq]
      rw [hval]
      refine ⟨?_, hrec.2⟩
      have hcons : countStarts (RetryEvent.attemptStart attempt ::
          RetryEvent.slept (delayOf (min 500 (100 * (attempt : ℚ)))) ::
          (retryFuel op delayOf maxRetries fuel (attempt + 1)).1) =
          countStarts (retryFuel op delayOf maxRetries fuel (attempt + 1)).1 + 1 := by
        simp [countStarts, List.countP_cons]
      rw [hcons, hrec.1]
      omega

/-- Claim C3: for an operation whose every attempt fails with a
non-rate-limit (transient) error, `retryOperation` performs exactly
`maxRetries` attempts and then re-throws the final error to its caller
(the `attempt === maxRetries` branch, line 481). -/
theorem retry_transient_exhausts_budget {α : Type} (op : ℕ → Except JsError α)
    (delayOf : ℚ → ℚ) (errOf : ℕ → String)
    (hop : ∀ n, op n = Except.error (JsError.other (errOf n)))
    (maxRetries : ℕ) (hpos : 1 ≤ maxRetries) :
    countStarts (retryOperation op delayOf maxRetries).1 = maxRetries ∧
      (retryOperation op delayOf maxRetries).2 =
        Except.error (JsError.other (errOf maxRetries)) := by
  have h := retryFuel_all_transient op delayOf errOf hop maxRetries (maxRetries + 1) 1
    hpos (by omega)
  rw [retryOperation]
  exact ⟨by rw [h.1]; omega, h.2⟩

/-- Witness for C3: three transient failures with a budget of three
attempts give exactly three attempts and the re-thrown final error. -/
theorem retry_transient_exhausts_budget_witness :
    countStarts (retryOperation
        (fun _ => (Except.error (JsError.other "ETIMEDOUT") : Except JsError Unit))
        (precisionDelay none false) 3).1 = 3 ∧
      (retryOperation
        (fun _ => (Except.error (JsError.other "ETIMEDOUT") : Except JsError Unit))
        (precisionDelay none false) 3).2 =
        Except.error (JsError.other "ETIMEDOUT") :=
  retry_transient_exhausts_budget _ (precisionDelay none false) (fun _ => "ETIMEDOUT")
    (fun _ => rfl) 3 (by norm_num)

/-- Claim C2 counterexample: with an attempt budget of 1 and a single
`FLOOD_WAIT` of 2 seconds (within the 300 s cap), `retryOperation`
sleeps only `precisionDelay(2000) = 1000/3 ms < 2000 ms` (the suggested
wait scaled down by the stabilization factor), and the `continue` runs
the loop's `attempt++`, so the flood-limited failure consumes the whole
attempt budget: no further attempt is made and the loop falls out
returning `undefined`.  This falsifies both "waits at least d" and
"does not consume the attempt budget". -/
theorem flood_wait_counterexample :
    (retryOperation
        (fun n => if n = 1 then (Except.error (JsError.floodWait 2) : Except JsError Unit)
                  else Except.ok ())
        (precisionDelay (some { stabilizationFactor := 3, currentSpeedMbps := 0 }) false)
        1).1 =
      [RetryEvent.attemptStart 1, RetryEvent.floodRecorded 2,
        RetryEvent.slept (1000/3)] ∧
    (retryOperation
        (fun n => if n = 1 then (Except.error (JsError.floodWait 2) : Except JsError Unit)
                  else Except.ok ())
        (precisionDelay (some { stabilizationFactor := 3, currentSpeedMbps := 0 }) false)
        1).2 = Except.ok none ∧
    (1000/3 : ℚ) < 2 * 1000 := by
  refine ⟨?_, ?_, by norm_num⟩
  · simp [retryOperation, retryFuel, precisionDelay]
    norm_num
  · simp [retryOperation, retryFuel]

theorem precisionDelay_le_half (mon : Option MonitorView) (boost : Bool) (ms : ℚ)
    (hms : 1000 ≤ ms) (hmon : ∀ m, mon = some m → 2 ≤ m.stabilizationFactor) :
    precisionDelay mon boost ms ≤ ms / 2 := by
  cases mon with
  | none =>
    simp only [precisionDelay]
    exact max_le (by linarith) (by linarith)
  | some m =>
    have hf : 2 ≤ m.stabilizationFactor := hmon m rfl
    have hms0 : (0 : ℚ) ≤ ms := by linarith
    have h1 : ms / (m.stabilizationFactor * 2) ≤ ms / 4 := by
      rw [div_le_div_iff₀ (by linarith) (by norm_num)]
      nlinarith
    have h2 : ms / m.stabilizationFactor ≤ ms / 2 := by
      rw [div_le_div_iff₀ (by linarith) (by norm_num)]
      nlinarith
    have h3 : ms / (m.stabilizationFactor * (3/2)) ≤ ms / 3 := by
      rw [div_le_div_iff₀ (by nlinarith) (by norm_num)]
      nlinarith
    simp only [precisionDelay]
    split_ifs with hb hc1 hc2 hc1a hc2a
    · have hin : max 5 (ms / (m.stabilizationFactor * 2)) ≤ ms / 2 :=
        max_le (by linarith) (by linarith)
      have hin5 : (5 : ℚ) ≤ max 5 (ms / (m.stabilizationFactor * 2)) := le_max_left _ _
      exact max_le (by linarith) (by linarith)
    · have hin : max 10 (ms / m.stabilizationFactor) ≤ ms / 2 :=
        max_le (by linarith) (by linarith)
      have hin10 : (10 : ℚ) ≤ max 10 (ms / m.stabilizationFactor) := le_max_left _ _
      exact max_le (by linarith) (by linarith)
    · have hin : max 8 (ms / (m.stabilizationFactor * (3/2))) ≤ ms / 2 :=
        max_le (by linarith) (by linarith)
      have hin8 : (8 : ℚ) ≤ max 8 (ms / (m.stabilizationFactor * (3/2))) := le_max_left _ _
      exact max_le (by linarith) (by linarith)
    · exact max_le (by linarith) (by linarith)
    · exact max_le (by linarith) (by linarith)
    · exact max_le (by linarith) (by linarith)

/-- Claim C2 amended: on a `FLOOD_WAIT(d)` failure with `d ≤ 300` s the
engine records the flood event and sleeps `precisionDelay(d * 1000)` -
a speed-scaled fraction that is at most half (hence strictly less than)
the suggested wait - and the `continue` advances the `for`-loop
counter, so the rate-limited failure does consume the attempt budget:
the run proceeds with attempt number 2. -/
theorem flood_wait_behaviour {α : Type} (op : ℕ → Except JsError α)
    (mon : Option MonitorView) (boost : Bool) (maxRetries d : ℕ)
    (hcap : d ≤ 300) (hpos : 1 ≤ maxRetries) (hd : 1 ≤ d)
    (hop : op 1 = Except.error (JsError.floodWait d))
    (hmon : ∀ m, mon = some m → 2 ≤ m.stabilizationFactor) :
    (retryOperation op (precisionDelay mon boost) maxRetries).1 =
      RetryEvent.attemptStart 1 :: RetryEvent.floodRecorded d ::
        RetryEvent.slept (precisionDelay mon boost ((d : ℚ) * 1000)) ::
        (retryFuel op (precisionDelay mon boost) maxRetries maxRetries 2).1 ∧
    (retryOperation op (precisionDelay mon boost) maxRetries).2 =
      (retryFuel op (precisionDelay mon boost) maxRetries maxRetries 2).2 ∧
    precisionDelay mon boost ((d : ℚ) * 1000) < (d : ℚ) * 1000 := by
  have hlt : ¬ maxRetries < 1 := by omega
  have hd1000 : (1000 : ℚ) ≤ (d : ℚ) * 1000 := by
    have : (1 : ℚ) ≤ (d : ℚ) := by exact_mod_cast hd
    nlinarith
  have hhalf := precisionDelay_le_half mon boost ((d : ℚ) * 1000) hd1000 hmon
  refine ⟨?_, ?_, by linarith⟩ <;>
    simp [retryOperation, retryFuel, hlt, hop, hcap]

/-- Witness for the amended C2 theorem: a concrete 2-second flood on
attempt 1 of 2, with the fresh monitor state (factor 3, speed 0). -/
theorem flood_wait_behaviour_witness :
    (retryOperation
        (fun n => if n = 1 then (Except.error (JsError.floodWait 2) : Except JsError Unit)
                  else Except.ok ())
        (precisionDelay (some { stabilizationFactor := 3, currentSpeedMbps := 0 }) false)
        2).1 =
      RetryEvent.attemptStart 1 :: RetryEvent.floodRecorded 2 ::
        RetryEvent.slept (precisionDelay
          (some { stabilizationFactor := 3, currentSpeedMbps := 0 }) false
          ((2 : ℚ) * 1000)) ::
        (retryFuel
          (fun n => if n = 1 then (Except.error (JsError.floodWait 2) : Except JsError Unit)
                    else Except.ok ())
          (precisionDelay (some { stabilizationFactor := 3, currentSpeedMbps := 0 }) false)
          2 2 2).1 ∧
    (retryOperation
        (fun n => if n = 1 then (Except.error (JsError.floodWait 2) : Except JsError Unit)
                  else Except.ok ())
        (precisionDelay (some { stabilizationFactor := 3, currentSpeedMbps := 0 }) false)
        2).2 =
      (retryFuel
        (fun n => if n = 1 then (Except.error (JsError.floodWait 2) : Except JsError Unit)
                  else Except.ok ())
        (precisionDelay (some { stabilizationFactor := 3, currentSpeedMbps := 0 }) false)
        2 2 2).2 ∧
    precisionDelay (some { stabilizationFactor := 3, currentSpeedMbps := 0 }) false
        ((2 : ℚ) * 1000) < (2 : ℚ) * 1000 :=
  flood_wait_behaviour _ _ false 2 2 (by norm_num) (by norm_num) (by norm_num) rfl
    (by intro m hm; cases hm; norm_num)

/-- Claim C5 counterexample: a batch whose body throws, whose re-fetch
succeeds, and whose re-run then throws with a failing re-fetch.  The
claim says this run performs exactly one whole-batch re-fetch and
propagates the retry's error to the caller; the code performs two
re-fetch calls and returns normally (`Except.ok ()`), because the
inner `catch (retryError)` of lines 1546-1548 only logs. -/
theorem processBatch_counterexample :
    processBatchRun [BatchRound.bodyErrRefreshSome, BatchRound.bodyErrRefreshNone] =
      (2, Except.ok ()) := by
  rfl

/-- Claim C5 amended: a batch-level exception triggers an automatic
whole-batch re-fetch and re-run, and this repeats recursively for as
long as each re-fetch keeps returning messages (it is not limited to
one); every error - including a failing retry - is caught and logged,
so `processBatch` always returns normally and never propagates an
error to its caller. -/
theorem processBatch_refetches_and_swallows (script rest : List BatchRound) :
    (processBatchRun script).2 = Except.ok () ∧
    processBatchRun (BatchRound.bodyErrRefreshSome :: rest) =
      ((processBatchRun rest).1 + 1, (processBatchRun rest).2) ∧
    processBatchRun (BatchRound.bodyErrRefreshNone :: rest) = (1, Except.ok ()) := by
  refine ⟨?_, rfl, rfl⟩
  induction script with
  | nil => rfl
  | cons r t ih => cases r <;> simp [processBatchRun, ih]

/-- Claim C4 counterexample: with `last_selection.json` holding
`{channelId: 1, messageOffsetId: 100}`, a restart that selects channel
2 makes `configureDownload` persist `messageOffsetId = 0` (lines
1983-1987), a strict decrease of the stored checkpoint value. -/
theorem checkpoint_counterexample :
    ((configureSel
        { channelId := some 1, messageOffsetId := some ((100 : ℤ) : WithBot ℤ) }
        2).1).messageOffsetId = some (0 : WithBot ℤ) ∧
      ((0 : ℤ) : WithBot ℤ) < ((100 : ℤ) : WithBot ℤ) := by
  constructor
  · simp [configureSel, updateLastSelection, channelDiffers, jsOrZero]
  · exact_mod_cast (by norm_num : (0 : ℤ) < 100)

theorem le_listMax (ids : List ℤ) : ∀ i ∈ ids, (i : WithBot ℤ) ≤ listMax ids := by
  induction ids with
  | nil => intro i hi; cases hi
  | cons a t ih =>
    intro i hi
    rcases List.mem_cons.mp hi with h | h
    · subst h; exact le_max_left _ _
    · exact le_trans (ih i h) (le_max_right _ _)

theorem ckptStep_mono {s t : Selection} (h : CkptStep s t) :
    offsetOf s ≤ offsetOf t := by
  cases h with
  | configure ch hch =>
    have hdiff : channelDiffers s.channelId ch = false := by
      rw [hch]
      simp [channelDiffers]
    have hoff : offsetOf (configureSel s ch).1 = jsOrZero s.messageOffsetId := by
      simp [configureSel, updateLastSelection, offsetOf, hdiff]
    rw [hoff]
    cases hsm : s.messageOffsetId with
    | none => simp [offsetOf, hsm, jsOrZero]
    | some v =>
      simp only [offsetOf, hsm, jsOrZero]
      split_ifs with hv
      · exact hv.le
      · exact le_refl v
  | window ids hne hgt =>
    have hoff : offsetOf (windowUpdate s ids) = listMax ids := by
      simp [windowUpdate, updateLastSelection, offsetOf]
    rw [hoff]
    cases ids with
    | nil => exact absurd rfl hne
    | cons a t2 =>
      have ha := hgt a (List.mem_cons_self a t2)
      have hb := le_listMax (a :: t2) a (List.mem_cons_self a t2)
      exact le_of_lt (lt_of_lt_of_le ha hb)

/-- Claim C4 amended: along any run in which every restart re-selects
the stored channel and every processed window contains at least one
message id strictly beyond the persisted offset (which fetching after
the configured offset guarantees), the persisted `messageOffsetId`
never decreases (an absent field reading as minimal); selecting a
different channel, however, resets it to 0. -/
theorem checkpoint_monotone_same_channel {s t : Selection}
    (h : Relation.ReflTransGen CkptStep s t) :
    offsetOf s ≤ offsetOf t := by
  induction h with
  | refl => exact le_refl _
  | tail _ hstep ih => exact le_trans ih (ckptStep_mono hstep)

/-- Witness for the amended C4 theorem: a two-step run - process a
window containing message 5, then restart on the same channel. -/
theorem checkpoint_monotone_same_channel_witness :
    offsetOf
        { channelId := some 1, messageOffsetId := some ((0 : ℤ) : WithBot ℤ) } ≤
      offsetOf (configureSel
        (windowUpdate
          { channelId := some 1, messageOffsetId := some ((0 : ℤ) : WithBot ℤ) }
          [5])
        1).1 :=
  checkpoint_monotone_same_channel
    (Relation.ReflTransGen.tail
      (Relation.ReflTransGen.single
        (CkptStep.window _ [5] (by simp)
          (by intro i hi
              simp only [List.mem_singleton] at hi
              subst hi
              show ((0 : ℤ) : WithBot ℤ) < ((5 : ℤ) : WithBot ℤ)
              exact_mod_cast (by norm_num : (0 : ℤ) < 5))))
      (CkptStep.configure _ 1 rfl))

/-- Claim C6: after a successful fetch, a nonzero byte-size hint (the
document size, else the first photo size, else 0 - JS `||`) makes the
verification delete the artifact and throw (a retried transient
failure) exactly when the actual size is below 95% of the hint; a zero
or absent hint always passes the check. -/
theorem size_check_spec (docSize photoFirstSize fileSize : ℕ) :
    (expectedSizeHint docSize photoFirstSize = 0 →
      sizeCheckOutcome (expectedSizeHint docSize photoFirstSize) fileSize =
        SizeCheckOutcome.accept) ∧
    (0 < expectedSizeHint docSize photoFirstSize →
      (sizeCheckOutcome (expectedSizeHint docSize photoFirstSize) fileSize =
          SizeCheckOutcome.deleteAndRetry ↔
        (fileSize : ℚ) < (expectedSizeHint docSize photoFirstSize : ℚ) * (19/20))) := by
  constructor
  · intro h0
    simp [sizeCheckOutcome, sizeVerified, h0]
  · intro hpos
    constructor
    · intro hout
      by_contra hlt
      push_neg at hlt
      have hver : sizeVerified (expectedSizeHint docSize photoFirstSize) fileSize = true := by
        simp [sizeVerified]
        right
        exact hlt
      simp [sizeCheckOutcome, hver] at hout
    · intro hlt
      have hver : ¬ sizeVerified (expectedSizeHint docSize photoFirstSize) fileSize = true := by
        simp [sizeVerified]
        constructor
        · omega
        · exact hlt
      simp [sizeCheckOutcome, hver, hpos]

theorem insertAsc_perm (x : ℕ) : ∀ l : List ℕ, List.Perm (insertAsc x l) (x :: l) := by
  intro l
  induction l with
  | nil => simp [insertAsc]
  | cons y ys ih =>
    simp only [insertAsc]
    split_ifs with h
    · exact List.Perm.refl _
    · exact (ih.cons y).trans (List.Perm.swap x y ys)

theorem sortIds_perm : ∀ l : List ℕ, List.Perm (sortIds l) l := by
  intro l
  induction l with
  | nil => exact List.Perm.refl _
  | cons a t ih => exact (insertAsc_perm a (sortIds t)).trans (ih.cons a)

theorem insertAsc_sorted (x : ℕ) : ∀ l : List ℕ, List.Sorted (· ≤ ·) l →
    List.Sorted (· ≤ ·) (insertAsc x l) := by
  intro l
  induction l with
  | nil => intro _; simp [insertAsc]
  | cons y ys ih =>
    intro hs
    rw [List.sorted_cons] at hs
    simp only [insertAsc]
    split_ifs with h
    · rw [List.sorted_cons]
      refine ⟨?_, by rw [List.sorted_cons]; exact hs⟩
      intro b hb
      rcases List.mem_cons.mp hb with hb | hb
      · subst hb; exact h
      · exact le_trans h (hs.1 b hb)
    · rw [List.sorted_cons]
      constructor
      · intro b hb
        have hmem := (insertAsc_perm x ys).mem_iff.mp hb
        rcases List.mem_cons.mp hmem with hb1 | hb1
        · subst hb1; omega
        · exact hs.1 b hb1
      · exact ih hs.2

theorem sortIds_sorted : ∀ l : List ℕ, List.Sorted (· ≤ ·) (sortIds l) := by
  intro l
  induction l with
  | nil => simp [sortIds]
  | cons a t ih => exact insertAsc_sorted a (sortIds t) ih

theorem sortIds_sorted_lt (records : List ℕ) (hnd : records.Nodup) :
    List.Sorted (· < ·) (sortIds records) := by
  have hs := sortIds_sorted records
  have hnd2 : (sortIds records).Nodup := ((sortIds_perm records).nodup_iff).mpr hnd
  exact List.Pairwise.imp (fun hab => lt_of_le_of_ne hab.1 hab.2)
    (List.Pairwise.and hs hnd2)

theorem startsOf_trace (outcome : ℕ → Bool) :
    ∀ l, startsOf (uploadQueueTrace outcome l) = l := by
  intro l
  induction l with
  | nil => rfl
  | cons a t ih =>
    simp only [uploadQueueTrace, startsOf, List.filterMap_cons] at ih ⊢
    exact congrArg (a :: ·) ih

theorem uploadBatch_eq (outcome : ℕ → Bool) (records : List ℕ) :
    uploadBatch true outcome records = uploadQueueTrace outcome (sortIds records) := by
  cases records with
  | nil => rfl
  | cons a t => simp [uploadBatch]

theorem mem_trace_of_mem (outcome : ℕ → Bool) : ∀ (l : List ℕ) (a : ℕ), a ∈ l →
    UploadEvent.start a ∈ uploadQueueTrace outcome l ∧
    UploadEvent.terminal a (outcome a) ∈ uploadQueueTrace outcome l := by
  intro l
  induction l with
  | nil => intro a ha; cases ha
  | cons b t ih =>
    intro a ha
    rcases List.mem_cons.mp ha with h | h
    · subst h; constructor <;> simp [uploadQueueTrace]
    · have hm := ih a h
      constructor <;> simp [uploadQueueTrace, hm.1, hm.2]

theorem trace_pred_before_succ (outcome : ℕ → Bool) :
    ∀ (l : List ℕ) (i : ℕ) (hi : i + 1 < l.length),
      ∃ pre mid post,
        uploadQueueTrace outcome l =
          pre ++ UploadEvent.start (l.get ⟨i, Nat.lt_of_succ_lt hi⟩) :: mid ++
            UploadEvent.start (l.get ⟨i + 1, hi⟩) :: post ∧
        UploadEvent.terminal (l.get ⟨i, Nat.lt_of_succ_lt hi⟩)
          (outcome (l.get ⟨i, Nat.lt_of_succ_lt hi⟩)) ∈ mid := by
  intro l
  induction l with
  | nil => intro i hi; simp at hi
  | cons a t ih =>
    intro i hi
    cases i with
    | zero =>
      cases t with
      | nil => simp at hi
      | cons b t2 =>
        refine ⟨[], [UploadEvent.terminal a (outcome a)],
          UploadEvent.terminal b (outcome b) :: uploadQueueTrace outcome t2, ?_, by simp⟩
        simp [uploadQueueTrace]
    | succ j =>
      have hj : j + 1 < t.length := by simpa using hi
      obtain ⟨pre, mid, post, heq, hmem⟩ := ih j hj
      refine ⟨UploadEvent.start a :: UploadEvent.terminal a (outcome a) :: pre,
        mid, post, ?_, hmem⟩
      simp only [uploadQueueTrace, heq, List.cons_append, List.get]

/-- Claim C1: for any batch, whatever order the parallel fetch phase
delivered the records in, `uploadBatch` sorts them ascending by message
id, so the sequence of upload starts is strictly ascending by id (given
the batch's ids are distinct), and the upload of the record at queue
index i+1 starts only after the record at index i has reached a
terminal state. -/
theorem upload_starts_strictly_ascending (outcome : ℕ → Bool) (records : List ℕ)
    (hnd : records.Nodup) :
    List.Sorted (· < ·) (startsOf (uploadBatch true outcome records)) ∧
    (∀ i (hi : i + 1 < (sortIds records).length),
      ∃ pre mid post,
        uploadBatch true outcome records =
          pre ++ UploadEvent.start ((sortIds records).get ⟨i, Nat.lt_of_succ_lt hi⟩) ::
            mid ++ UploadEvent.start ((sortIds records).get ⟨i + 1, hi⟩) :: post ∧
        UploadEvent.terminal ((sortIds records).get ⟨i, Nat.lt_of_succ_lt hi⟩)
          (outcome ((sortIds records).get ⟨i, Nat.lt_of_succ_lt hi⟩)) ∈ mid) := by
  constructor
  · rw [uploadBatch_eq, startsOf_trace]
    exact sortIds_sorted_lt records hnd
  · intro i hi
    rw [uploadBatch_eq]
    exact trace_pred_before_succ outcome (sortIds records) i hi

/-- Witness for C1: the adversarially ordered batch [3, 1, 2] yields
upload starts in strictly ascending id order. -/
theorem upload_starts_strictly_ascending_witness :
    List.Sorted (· < ·) (startsOf (uploadBatch true (fun _ => true) [3, 1, 2])) :=
  (upload_starts_strictly_ascending (fun _ => true) [3, 1, 2] (by decide)).1

/-- Claim C7: every record of the batch gets its upload started and is
driven to a terminal state carrying its own outcome, for every possible
outcome assignment - in particular a failed (or timed-out) record is
marked failed yet the remaining records are still attempted, and the
results list pairs every queued id with its outcome. -/
theorem failed_upload_does_not_block_queue (outcome : ℕ → Bool) (records : List ℕ) :
    (∀ i ∈ records, UploadEvent.start i ∈ uploadBatch true outcome records) ∧
    (∀ i ∈ records,
      UploadEvent.terminal i (outcome i) ∈ uploadBatch true outcome records) ∧
    uploadResults outcome records = (sortIds records).map (fun i => (i, outcome i)) := by
  refine ⟨?_, ?_, rfl⟩ <;>
    · intro i hirec
      rw [uploadBatch_eq]
      have hmem : i ∈ sortIds records := (sortIds_perm records).mem_iff.mpr hirec
      first
      | exact (mem_trace_of_mem outcome (sortIds records) i hmem).1
      | exact (mem_trace_of_mem outcome (sortIds records) i hmem).2

/-- Witness for C7: in the batch [3, 1, 2] where record 1 fails, record
1 reaches a failed terminal state and record 2 is still started. -/
theorem failed_upload_does_not_block_queue_witness :
    UploadEvent.start 2 ∈ uploadBatch true (fun i => i != 1) [3, 1, 2] ∧
    UploadEvent.terminal 1 false ∈ uploadBatch true (fun i => i != 1) [3, 1, 2] := by
  have h := failed_upload_does_not_block_queue (fun i => i != 1) [3, 1, 2]
  exact ⟨h.1 2 (by simp), h.2.1 1 (by simp)⟩

/-- Witness for C6: an absent hint (document and photo sizes 0) accepts
any file; a 100-byte hint with a 94-byte artifact (below the 95%
tolerance) is deleted and retried. -/
theorem size_check_spec_witness :
    sizeCheckOutcome (expectedSizeHint 0 0) 7 = SizeCheckOutcome.accept ∧
      sizeCheckOutcome (expectedSizeHint 100 0) 94 = SizeCheckOutcome.deleteAndRetry :=
  ⟨(size_check_spec 0 0 7).1 (by rfl),
   ((size_check_spec 100 0 94).2 (by norm_num [expectedSizeHint])).mpr
     (by norm_num [expectedSizeHint])⟩

/-- Claim C10: `checkFileExist` returns true exactly when the message
has media and the file at `getMediaPath(message, outputFolder)` exists
with a readable size strictly greater than zero; a message without
media, a missing file, a zero-byte file or an unreadable file all yield
false, so an empty or corrupted partial artifact is never treated as
already downloaded. -/
theorem checkFileExist_spec (fsv : FsView) (m : MsgMedia) (outputFolder : List Char) :
    checkFileExist fsv m outputFolder = true ↔
      (m.hasMedia = true ∧
        fsv.existsF (getMediaPath outputFolder m) = true ∧
        ∃ sz, fsv.statSize (getMediaPath outputFolder m) = some sz ∧ 0 < sz) := by
  cases hm : m.hasMedia with
  | false => simp [checkFileExist, hm]
  | true =>
    cases hex : fsv.existsF (getMediaPath outputFolder m) with
    | false => simp [checkFileExist, hm, hex]
    | true =>
      cases hst : fsv.statSize (getMediaPath outputFolder m) with
      | none => simp [checkFileExist, hm, hex, hst]
      | some sz => simp [checkFileExist, hm, hex, hst]

theorem takeWhile_append_sat {α : Type} (p : α → Bool) :
    ∀ (xs : List α) (y : α) (ys : List α), (∀ x ∈ xs, p x = true) → p y = false →
      (xs ++ y :: ys).takeWhile p = xs := by
  intro xs
  induction xs with
  | nil => intro y ys _ hy; simp [List.takeWhile_cons, hy]
  | cons a t ih =>
    intro y ys hall hy
    have ha : p a = true := hall a (List.mem_cons_self a t)
    simp only [List.cons_append, List.takeWhile_cons, ha, if_true]
    exact congrArg (a :: ·) (ih y ys (fun x hx => hall x (List.mem_cons_of_mem a hx)) hy)

theorem drop_append_succ {α : Type} (xs : List α) (y : α) (ys : List α) :
    (xs ++ y :: ys).drop (xs.length + 1) = ys := by
  have h : xs ++ y :: ys = (xs ++ [y]) ++ ys := by simp
  have hlen : (xs ++ [y]).length = xs.length + 1 := by simp
  rw [h, ← hlen, List.drop_left]

theorem lastSeg_spec (c : Char) (as bs : List Char) (hbs : c ∉ bs) :
    lastSeg c (as ++ c :: bs) = bs := by
  unfold lastSeg
  have h1 : (as ++ c :: bs).reverse = bs.reverse ++ c :: as.reverse := by simp
  rw [h1, takeWhile_append_sat _ _ _ _ ?hall ?hc, List.reverse_reverse]
  case hall =>
    intro x hx
    have hxb : x ∈ bs := List.mem_reverse.mp hx
    exact bne_iff_ne.mpr (fun he => hbs (he ▸ hxb))
  case hc => simp

theorem beforeLast_spec (c : Char) (as bs : List Char) (hbs : c ∉ bs) :
    beforeLast c (as ++ c :: bs) = as := by
  unfold beforeLast
  have h1 : (as ++ c :: bs).reverse = bs.reverse ++ c :: as.reverse := by simp
  rw [h1, takeWhile_append_sat _ _ _ _ ?hall ?hc, drop_append_succ,
    List.reverse_reverse]
  case hall =>
    intro x hx
    have hxb : x ∈ bs := List.mem_reverse.mp hx
    exact bne_iff_ne.mpr (fun he => hbs (he ▸ hxb))
  case hc => simp

theorem idChars_ne_nil (n : ℕ) : idChars n ≠ [] := by
  unfold idChars
  split_ifs with h
  · simp
  · simpa using (Nat.digits_ne_nil_iff_ne_zero.mpr h)

theorem mem_idChars_digit (n : ℕ) :
    ∀ ch ∈ idChars n, ∃ d, d < 10 ∧ ch = Nat.digitChar d := by
  intro ch hch
  unfold idChars at hch
  split_ifs at hch with h
  · simp only [List.mem_singleton] at hch
    exact ⟨0, by norm_num, by rw [hch]; rfl⟩
  · simp only [List.mem_map, List.mem_reverse] at hch
    obtain ⟨d, hd, hde⟩ := hch
    exact ⟨d, Nat.digits_lt_base (by norm_num) hd, hde.symm⟩

theorem idChars_no_special (n : ℕ) :
    '_' ∉ idChars n ∧ '.' ∉ idChars n ∧ '/' ∉ idChars n := by
  have hd : ∀ d < 10, Nat.digitChar d ≠ '_' ∧ Nat.digitChar d ≠ '.' ∧
      Nat.digitChar d ≠ '/' := by decide
  refine ⟨fun h => ?_, fun h => ?_, fun h => ?_⟩
  · obtain ⟨d, hdlt, heq⟩ := mem_idChars_digit n _ h
    exact (hd d hdlt).1 heq.symm
  · obtain ⟨d, hdlt, heq⟩ := mem_idChars_digit n _ h
    exact (hd d hdlt).2.1 heq.symm
  · obtain ⟨d, hdlt, heq⟩ := mem_idChars_digit n _ h
    exact (hd d hdlt).2.2 heq.symm

theorem digits_map_digitChar_cancel (l : List ℕ) (hl : ∀ d ∈ l, d < 10) :
    (l.map Nat.digitChar).map (fun c : Char => c.toNat - 48) = l := by
  have hinv : ∀ d < 10, (Nat.digitChar d).toNat - 48 = d := by decide
  rw [List.map_map]
  have : ∀ d ∈ l, ((fun c : Char => c.toNat - 48) ∘ Nat.digitChar) d = id d := by
    intro d hd
    exact hinv d (hl d hd)
  rw [List.map_congr_left this, List.map_id]

theorem idChars_inj {a b : ℕ} (h : idChars a = idChars b) : a = b := by
  have hzero : ∀ m : ℕ, m ≠ 0 →
      (Nat.digits 10 m).reverse.map Nat.digitChar ≠ ['0'] := by
    intro m hm hcon
    have hlen := congrArg List.length hcon
    simp only [List.length_map, List.length_reverse, List.length_singleton] at hlen
    obtain ⟨d, hd⟩ := List.length_eq_one.mp hlen
    rw [hd] at hcon
    have hd0 : Nat.digitChar d = '0' := by
      simpa using hcon
    have hdlt : d < 10 := by
      have hdm : d ∈ Nat.digits 10 m := by rw [hd]; simp
      exact Nat.digits_lt_base (by norm_num) hdm
    have hdz : d = 0 := by
      have hh : ∀ e < 10, Nat.digitChar e = '0' → e = 0 := by decide
      exact hh d hdlt hd0
    have hm0 : m = 0 := by
      have hofd := Nat.ofDigits_digits 10 m
      rw [hd, hdz] at hofd
      simpa using hofd.symm
    exact hm hm0
  unfold idChars at h
  by_cases ha : a = 0 <;> by_cases hb : b = 0
  · rw [ha, hb]
  · rw [if_pos ha, if_neg hb] at h
    exact absurd h.symm (hzero b hb)
  · rw [if_neg ha, if_pos hb] at h
    exact absurd h (hzero a ha)
  · rw [if_neg ha, if_neg hb] at h
    have hma := congrArg (List.map (fun c : Char => c.toNat - 48)) h
    have hca : ((Nat.digits 10 a).reverse.map Nat.digitChar).map
        (fun c : Char => c.toNat - 48) = (Nat.digits 10 a).reverse := by
      apply digits_map_digitChar_cancel
      intro d hd
      exact Nat.digits_lt_base (by norm_num) (List.mem_reverse.mp hd)
    have hcb : ((Nat.digits 10 b).reverse.map Nat.digitChar).map
        (fun c : Char => c.toNat - 48) = (Nat.digits 10 b).reverse := by
      apply digits_map_digitChar_cancel
      intro d hd
      exact Nat.digits_lt_base (by norm_num) (List.mem_reverse.mp hd)
    rw [hca, hcb] at hma
    have hdig : Nat.digits 10 a = Nat.digits 10 b := by
      have := congrArg List.reverse hma
      simpa using this
    have hofa := Nat.ofDigits_digits 10 a
    have hofb := Nat.ofDigits_digits 10 b
    rw [← hofa, ← hofb, hdig]

theorem takeWhile_decomp {α : Type} (p : α → Bool) (l : List α) :
    (l.takeWhile p = l ∧ ∀ x ∈ l, p x = true) ∨
    ∃ ys y zs, l = ys ++ y :: zs ∧ l.takeWhile p = ys ∧
      (∀ x ∈ ys, p x = true) ∧ p y = false := by
  induction l with
  | nil => left; exact ⟨rfl, by simp⟩
  | cons a t ih =>
    cases hpa : p a with
    | false =>
      right
      exact ⟨[], a, t, by simp, by simp [List.takeWhile_cons, hpa], by simp, hpa⟩
    | true =>
      rcases ih with ⟨h1, h2⟩ | ⟨ys, y, zs, h1, h2, h3, h4⟩
      · left
        refine ⟨by simp [List.takeWhile_cons, hpa, h1], ?_⟩
        intro x hx
        rcases List.mem_cons.mp hx with hx | hx
        · rw [hx]; exact hpa
        · exact h2 x hx
      · right
        refine ⟨a :: ys, y, zs, by simp [h1], ?_, ?_, h4⟩
        · simp [List.takeWhile_cons, hpa, h2]
        · intro x hx
          rcases List.mem_cons.mp hx with hx | hx
          · rw [hx]; exact hpa
          · exact h3 x hx

theorem baseNameList_of_extname_nil (l : List Char) (h : extnameList l = []) :
    baseNameList l = l := by
  unfold baseNameList
  rw [h]
  simp

theorem extname_shape (l : List Char) :
    (extnameList l = [] ∧
      ('.' ∉ l ∨ (∃ t, l = '.' :: t ∧ '.' ∉ t) ∨ l = ['.', '.'])) ∨
    (∃ s, extnameList l = '.' :: s ∧ '.' ∉ s ∧
      l = baseNameList l ++ '.' :: s) := by
  rcases takeWhile_decomp (fun c => c != '.') l.reverse with
    ⟨h1, h2⟩ | ⟨ys, y, zs, h1, h2, h3, h4⟩
  · left
    have hlen : l.length ≤ (l.reverse.takeWhile (fun c => c != '.')).length := by
      rw [h1]; simp
    constructor
    · simp only [extnameList]
      rw [if_pos hlen]
    · left
      intro hdot
      have := h2 '.' (List.mem_reverse.mpr hdot)
      simp at this
  · have hy : y = '.' := by
      by_contra hne
      have hb : (y != '.') = true := bne_iff_ne.mpr hne
      rw [h4] at hb
      exact Bool.false_ne_true hb
    subst hy
    have hl : l = zs.reverse ++ '.' :: ys.reverse := by
      rw [← List.reverse_reverse l, h1]
      simp
    have hysnd : '.' ∉ ys.reverse := by
      intro hx
      have := h3 '.' (List.mem_reverse.mp hx)
      simp at this
    have hpre : l.reverse.takeWhile (fun c => c != '.') = ys := h2
    cases zs with
    | nil =>
      left
      have hl2 : l = '.' :: ys.reverse := by simpa using hl
      have hlen2 : l.length = ys.length + 1 := by
        rw [hl2]; simp
      have hext : extnameList l = [] := by
        simp only [extnameList]
        rw [hpre, if_neg (by omega), if_pos (by omega)]
      exact ⟨hext, Or.inr (Or.inl ⟨ys.reverse, hl2, hysnd⟩)⟩
    | cons z zs2 =>
      have hlen2 : l.length = zs2.length + ys.length + 2 := by
        rw [hl]
        simp [List.length_append]
        omega
      by_cases hdd : l = ['.', '.']
      · left
        refine ⟨?_, Or.inr (Or.inr hdd)⟩
        rw [hdd]
        rfl
      · right
        have hext : extnameList l = '.' :: ys.reverse := by
          simp only [extnameList]
          rw [hpre, if_neg (by omega), if_neg (by omega), if_neg hdd]
        refine ⟨ys.reverse, hext, hysnd, ?_⟩
        have hcount : l.length - ('.' :: ys.reverse).length =
            (z :: zs2).reverse.length := by
          simp
          omega
        have hbase : baseNameList l = (z :: zs2).reverse := by
          unfold baseNameList
          rw [hext, hcount]
          conv_lhs => rw [hl]
          exact List.take_left _ _
        rw [hbase]
        exact hl

theorem uniqueFileName_mixed_absurd (i j : ℕ) (r1 r2 : List Char)
    (hext1 : extnameList r1 = [])
    (hsh : '.' ∉ r1 ∨ (∃ t, r1 = '.' :: t ∧ '.' ∉ t) ∨ r1 = ['.', '.'])
    (s : List Char) (hext2 : extnameList r2 = '.' :: s) (hs : '.' ∉ s)
    (h : uniqueFileName i r1 = uniqueFileName j r2) : False := by
  have hb1 : baseNameList r1 = r1 := baseNameList_of_extname_nil r1 hext1
  have hn1 : uniqueFileName i r1 = r1 ++ '_' :: idChars i := by
    unfold uniqueFileName
    rw [hext1, hb1]
    try simp
  have hn2 : uniqueFileName j r2 =
      (baseNameList r2 ++ '_' :: idChars j) ++ '.' :: s := by
    unfold uniqueFileName
    rw [hext2]
    try simp
  rw [hn1, hn2] at h
  rcases hsh with hnd | ⟨t, ht, htnd⟩ | hdd
  · have hdotn : '.' ∈ r1 ++ '_' :: idChars i := by
      rw [h]
      exact List.mem_append_right _ (List.mem_cons_self _ _)
    rcases List.mem_append.mp hdotn with hmem | hmem
    · exact hnd hmem
    · rcases List.mem_cons.mp hmem with hmem | hmem
      · exact absurd hmem (by decide)
      · exact (idChars_no_special i).2.1 hmem
  · have hnd2 : '.' ∉ t ++ '_' :: idChars i := by
      intro hx
      rcases List.mem_append.mp hx with hx | hx
      · exact htnd hx
      · rcases List.mem_cons.mp hx with hx | hx
        · exact absurd hx (by decide)
        · exact (idChars_no_special i).2.1 hx
    have hform : r1 ++ '_' :: idChars i = [] ++ '.' :: (t ++ '_' :: idChars i) := by
      rw [ht]
      simp
    have hbl1 : beforeLast '.' (r1 ++ '_' :: idChars i) = [] := by
      rw [hform]
      exact beforeLast_spec '.' [] _ hnd2
    have hbl2 : beforeLast '.' (r1 ++ '_' :: idChars i) =
        baseNameList r2 ++ '_' :: idChars j := by
      rw [h]
      exact beforeLast_spec '.' _ s hs
    rw [hbl1] at hbl2
    exact absurd hbl2.symm (by simp)
  · have hnd2 : '.' ∉ '_' :: idChars i := by
      intro hx
      rcases List.mem_cons.mp hx with hx | hx
      · exact absurd hx (by decide)
      · exact (idChars_no_special i).2.1 hx
    have hform : r1 ++ '_' :: idChars i = ['.'] ++ '.' :: ('_' :: idChars i) := by
      rw [hdd]
      simp
    have hbl1 : beforeLast '.' (r1 ++ '_' :: idChars i) = ['.'] := by
      rw [hform]
      exact beforeLast_spec '.' ['.'] _ hnd2
    have hbl2 : beforeLast '.' (r1 ++ '_' :: idChars i) =
        baseNameList r2 ++ '_' :: idChars j := by
      rw [h]
      exact beforeLast_spec '.' _ s hs
    rw [hbl1] at hbl2
    have hlen := congrArg List.length hbl2
    simp [List.length_append] at hlen
    have hlz : (idChars j).length = 0 := by omega
    exact idChars_ne_nil j (List.length_eq_zero.mp hlz)

theorem uniqueFileName_inj {id1 id2 : ℕ} {raw1 raw2 : List Char}
    (h : uniqueFileName id1 raw1 = uniqueFileName id2 raw2) : id1 = id2 := by
  rcases extname_shape raw1 with ⟨hext1, hsh1⟩ | ⟨s1, hext1, hs1, hr1⟩ <;>
    rcases extname_shape raw2 with ⟨hext2, hsh2⟩ | ⟨s2, hext2, hs2, hr2⟩
  · have hb1 := baseNameList_of_extname_nil raw1 hext1
    have hb2 := baseNameList_of_extname_nil raw2 hext2
    have hn1 : uniqueFileName id1 raw1 = raw1 ++ '_' :: idChars id1 := by
      unfold uniqueFileName
      rw [hext1, hb1]
      try simp
    have hn2 : uniqueFileName id2 raw2 = raw2 ++ '_' :: idChars id2 := by
      unfold uniqueFileName
      rw [hext2, hb2]
      try simp
    rw [hn1, hn2] at h
    have h1 := congrArg (lastSeg '_') h
    rw [lastSeg_spec _ _ _ (idChars_no_special id1).1,
      lastSeg_spec _ _ _ (idChars_no_special id2).1] at h1
    exact idChars_inj h1
  · exact (uniqueFileName_mixed_absurd id1 id2 raw1 raw2 hext1 hsh1 s2 hext2 hs2 h).elim
  · exact
      (uniqueFileName_mixed_absurd id2 id1 raw2 raw1 hext2 hsh2 s1 hext1 hs1 h.symm).elim
  · have hn1 : uniqueFileName id1 raw1 =
        (baseNameList raw1 ++ '_' :: idChars id1) ++ '.' :: s1 := by
      unfold uniqueFileName
      rw [hext1]
      try simp
    have hn2 : uniqueFileName id2 raw2 =
        (baseNameList raw2 ++ '_' :: idChars id2) ++ '.' :: s2 := by
      unfold uniqueFileName
      rw [hext2]
      try simp
    rw [hn1, hn2] at h
    have hbl := congrArg (beforeLast '.') h
    rw [beforeLast_spec _ _ _ hs1, beforeLast_spec _ _ _ hs2] at hbl
    have h2 := congrArg (lastSeg '_') hbl
    rw [lastSeg_spec _ _ _ (idChars_no_special id1).1,
      lastSeg_spec _ _ _ (idChars_no_special id2).1] at h2
    exact idChars_inj h2

theorem slash_not_mem_uniqueFileName (i : ℕ) (raw : List Char) (hs : '/' ∉ raw) :
    '/' ∉ uniqueFileName i raw := by
  intro hmem
  unfold uniqueFileName at hmem
  rcases List.mem_append.mp hmem with hm | hm
  · rcases List.mem_append.mp hm with hm2 | hm2
    · unfold baseNameList at hm2
      exact hs (List.take_subset _ _ hm2)
    · rcases List.mem_cons.mp hm2 with hm3 | hm3
      · exact absurd hm3 (by decide)
      · exact (idChars_no_special i).2.2 hm3
  · rcases extname_shape raw with ⟨hext, _⟩ | ⟨s, hext, _, hr⟩
    · rw [hext] at hm
      cases hm
    · rw [hext] at hm
      rcases List.mem_cons.mp hm with hm3 | hm3
      · exact absurd hm3 (by decide)
      · exact hs (hr ▸ List.mem_append_right _ (List.mem_cons_of_mem _ hm3))

/-- Claim C9: two media-bearing messages with distinct ids always get
distinct local paths: lines 1143-1146 embed the message id as the
suffix `_<id>` between the base name and the extension, so artifact
paths never collide even when the source files share a name, whatever
the media-type folders are.  Raw file names are taken free of the path
separator `/` (for names with a directory part, `path.basename` first
strips it and the argument applies to the remaining segment). -/
theorem getMediaPath_distinct (outputFolder : List Char) (m1 m2 : MsgMedia)
    (hm1 : m1.hasMedia = true) (hm2 : m2.hasMedia = true)
    (hs1 : '/' ∉ m1.rawFileName) (hs2 : '/' ∉ m2.rawFileName)
    (hid : m1.id ≠ m2.id) :
    getMediaPath outputFolder m1 ≠ getMediaPath outputFolder m2 := by
  intro h
  unfold getMediaPath at h
  rw [if_pos hm1, if_pos hm2] at h
  have hre1 : outputFolder ++ '/' :: m1.folderType ++
      '/' :: uniqueFileName m1.id m1.rawFileName =
      (outputFolder ++ '/' :: m1.folderType) ++
        '/' :: uniqueFileName m1.id m1.rawFileName := by
    simp
  have hre2 : outputFolder ++ '/' :: m2.folderType ++
      '/' :: uniqueFileName m2.id m2.rawFileName =
      (outputFolder ++ '/' :: m2.folderType) ++
        '/' :: uniqueFileName m2.id m2.rawFileName := by
    simp
  rw [hre1, hre2] at h
  have hseg := congrArg (lastSeg '/') h
  rw [lastSeg_spec _ _ _ (slash_not_mem_uniqueFileName _ _ hs1),
    lastSeg_spec _ _ _ (slash_not_mem_uniqueFileName _ _ hs2)] at hseg
  exact hid (uniqueFileName_inj hseg)

/-- Witness for C9: two messages that share the source name `a.mp4` but
have ids 1 and 2 receive distinct paths. -/
theorem getMediaPath_distinct_witness :
    getMediaPath "out".data
        { id := 1, hasMedia := true, rawFileName := "a.mp4".data,
          folderType := "video".data } ≠
      getMediaPath "out".data
        { id := 2, hasMedia := true, rawFileName := "a.mp4".data,
          folderType := "video".data } :=
  getMediaPath_distinct "out".data _ _ rfl rfl (by decide) (by decide) (by decide)

end Telehele
